import Mathlib

/-!
Verification of the message-dispatch and response-segmentation pipeline of the
`dc_apiai` repository (source files `maindc.py` and `main.py`).

Strings of the Python source are modelled as `List Char` (Python strings are
sequences of Unicode code points, and all the length arithmetic in the source
counts characters).  Every definition below is a shallow embedding of a
function of the source; doc comments name the embedded function.
-/

/-- The character U+0060 (the code-fence marker character of the source's
regular expression). -/
def backtick : Char := Char.ofNat 96

abbrev Str := List Char

/-! ## Segmenter (`split_message` in `maindc.py`, lines 449-511)

The source first runs the regular expression ` ``` [\s\S]*? ``` ` (non-greedy)
over the whole text with `finditer`, cutting the text into an alternating list
of plain segments and fenced segments, and then greedily packs those parts
into chunks of at most `max_length` characters. -/

/-- Scan for the earliest closing fence marker: `findClose s = some (inner, rest)`
iff `s = inner ++ fence ++ rest` where `fence` is three fence characters and
`inner` contains no fence marker start before that point.  This models the
non-greedy tail ` [\s\S]*? ``` ` of the source's regular expression. -/
def findClose : Str → Option (Str × Str)
  | a :: b :: c :: rest =>
    if a = backtick ∧ b = backtick ∧ c = backtick then
      some ([], rest)
    else
      (findClose (b :: c :: rest)).map (fun p => (a :: p.1, p.2))
  | _ => none

/-- Find the earliest complete fenced region of `s`.  Returns
`some (pre, fence, rest)` where `pre` is the text before the region, `fence`
the full region including both three-character markers, and `rest` the text
after it.  Models one step of `codeblock_pattern.finditer` of the source. -/
def splitFirstFence : Str → Option (Str × Str × Str)
  | a :: b :: c :: rest =>
    if a = backtick ∧ b = backtick ∧ c = backtick then
      match findClose rest with
      | some (inner, after) =>
        some ([], backtick :: backtick :: backtick :: (inner ++ [backtick, backtick, backtick]), after)
      | none => none
    else
      (splitFirstFence (b :: c :: rest)).map (fun t => (a :: t.1, t.2.1, t.2.2))
  | _ => none

/-- Substring test for three consecutive fence characters; models the
source's test `'` ++ `'``' ++ `' in part`. -/
def hasTriple : Str → Bool
  | a :: b :: c :: rest =>
    if a = backtick ∧ b = backtick ∧ c = backtick then true else hasTriple (b :: c :: rest)
  | _ => false

/-- Fuelled worker for `splitParts`; the fuel only serves termination and is
always instantiated with the length of the scanned text, which is sufficient
because every found region consumes at least six characters. -/
def splitPartsF : Nat → Str → List Str
  | _, [] => []
  | 0, s => [s]
  | fuel + 1, s =>
    match splitFirstFence s with
    | none => [s]
    | some (pre, f, rest) =>
      (if pre = [] then [f] else [pre, f]) ++ splitPartsF fuel rest

/-- The first phase of `split_message` (lines 453-469): cut `content` into the
alternating list `parts` of plain segments and complete fenced segments, in
order, dropping empty segments exactly as the source does. -/
def splitParts (s : Str) : List Str := splitPartsF s.length s

/-- Fuelled worker for `findall`. -/
def findallF : Nat → Str → List Str
  | _, [] => []
  | 0, _ => []
  | fuel + 1, s =>
    match splitFirstFence s with
    | none => []
    | some (_, f, rest) => f :: findallF fuel rest

/-- Models `codeblock_pattern.findall(part)` of the source (line 480): the list of
complete fenced regions of `part`, in order. -/
def findall (s : Str) : List Str := findallF s.length s

/-- Fuelled worker for `chunksOf`. -/
def chunksOfF : Nat → Nat → Str → List Str
  | _, _, [] => []
  | 0, _, s => [s]
  | fuel + 1, n, s => s.take n :: chunksOfF fuel n (s.drop n)

/-- Fixed-size slicing `[part[i:i+n] for i in range(0, len(part), n)]` of the
source (lines 484-485 and 494-495); meaningful for `n ≥ 1` (the source's
`max_length` is positive). -/
def chunksOf (n : Nat) (s : Str) : List Str := chunksOfF s.length n s

/-- The mutable state of the packing loop of `split_message`:
`messages` is the list of flushed chunks, `current` the chunk being built. -/
structure SplitState where
  messages : List Str
  current : Str
deriving DecidableEq

/-- Lines 496-500 and 502-506 of the source (both occurrences are literally the
same code): flush `current` if appending `chunk` would exceed `maxLength` and
`current` is non-empty, then append `chunk` to `current`. -/
def pushChunkText (maxLength : Nat) (st : SplitState) (chunk : Str) : SplitState :=
  if st.current.length + chunk.length > maxLength ∧ st.current ≠ [] then
    SplitState.mk (st.messages ++ [st.current]) chunk
  else
    SplitState.mk st.messages (st.current ++ chunk)

/-- Lines 481-491 of the source: handling of one fenced region found inside an
oversized part.  An oversized region is sliced into fixed-size chunks that are
appended directly to `messages` (bypassing `current`); otherwise `current` is
flushed if needed and the region is appended directly to `messages`. -/
def pushCodeblock (maxLength : Nat) (st : SplitState) (cb : Str) : SplitState :=
  if cb.length > maxLength then
    SplitState.mk (st.messages ++ chunksOf maxLength cb) st.current
  else if st.current.length + cb.length > maxLength ∧ st.current ≠ [] then
    SplitState.mk (st.messages ++ [st.current] ++ [cb]) []
  else
    SplitState.mk (st.messages ++ [cb]) st.current

/-- Lines 475-506 of the source: processing of one part of the alternating
segment list. -/
def processPart (maxLength : Nat) (st : SplitState) (part : Str) : SplitState :=
  if part.length > maxLength then
    if hasTriple part then
      (findall part).foldl (pushCodeblock maxLength) st
    else
      (chunksOf maxLength part).foldl (pushChunkText maxLength) st
  else
    pushChunkText maxLength st part

/-- Lines 508-509 of the source: append the pending `current_message` to
`messages` when it is non-empty. -/
def finalizeSplit (st : SplitState) : List Str :=
  if st.current = [] then st.messages else st.messages ++ [st.current]

/-- Models `split_message(content, max_length)` of `maindc.py` (lines 449-511). -/
def split_message (content : Str) (maxLength : Nat) : List Str :=
  finalizeSplit ((splitParts content).foldl (processPart maxLength) (SplitState.mk [] []))

/-! ## Access resolver (`is_allowed` in `maindc.py`, lines 89-108) -/

/-- The channel types distinguished by `is_allowed`: direct messages
(`discord.ChannelType.private`), the two thread types, and any other
(non-private, non-thread) channel type. -/
inductive ChanType
  | dm
  | publicThread
  | privateThread
  | standard
deriving DecidableEq

/-- Membership test `(guild_id, x) in allowed_channels` of the source, where
`guild_id` is `message.guild.id` when the message has a guild and `None`
otherwise; the allow-list only ever contains integer pairs, so a `None` guild
never matches. -/
def inAllow (guildId : Option Int) (x : Int) (allowed : List (Int × Int)) : Bool :=
  match guildId with
  | some g => decide ((g, x) ∈ allowed)
  | none => false

/-- Models `is_allowed(message, allowed_channels, logger)` of `maindc.py`. -/
def is_allowed (ctype : ChanType) (guildId : Option Int) (channelId : Int)
    (parentId : Option Int) (allowed : List (Int × Int)) : Bool :=
  match ctype with
  | .dm => false
  | .publicThread | .privateThread =>
    match parentId with
    | some p => inAllow guildId p allowed
    | none => false
  | .standard => inAllow guildId channelId allowed

/-! ## Model registry (`NAME_MAPPING` in `maindc.py`, lines 11-23, and the
selector handling of `handle_message`, lines 587-603) -/

/-- The `NAME_MAPPING` dictionary of `maindc.py`. -/
def NAME_MAPPING : List (Str × Str) :=
  [("o1".toList, "o1".toList),
   ("o3m".toList, "o3-mini".toList),
   ("o1m".toList, "o1-mini".toList),
   ("4o".toList, "chatgpt-4o".toList),
   ("son37".toList, "claude-3-7-sonnet-latest".toList),
   ("opus".toList, "claude-3-opus-20240229".toList),
   ("sonnet".toList, "claude-3-5-sonnet-20241022".toList),
   ("haiku".toList, "claude-3-5-haiku-20241022".toList)]

/-- The `NAME_MAPPING` dictionary of `main.py` (lines 11-15). -/
def NAME_MAPPING_main : List (Str × Str) :=
  [("o1".toList, "o1-preview".toList),
   ("o1m".toList, "o1-mini".toList),
   ("4o".toList, "chatgpt-4o-latest".toList)]

/-- Python `dict.get(key, None)` for a literal dictionary represented as an
association list with distinct keys. -/
def dictGet : List (Str × Str) → Str → Option Str
  | [], _ => none
  | e :: rest, k => if e.1 = k then some e.2 else dictGet rest k

/-- The two provider clients of `maindc.py`. -/
inductive Provider
  | openai
  | anthropic
deriving DecidableEq

/-- Line 600 of `maindc.py`: `if name in {"opus", "sonnet", "haiku"}` selects
the Anthropic client, every other selector the OpenAI client. -/
def providerOf (name : Str) : Provider :=
  if name = "opus".toList ∨ name = "sonnet".toList ∨ name = "haiku".toList then
    Provider.anthropic
  else
    Provider.openai

/-- Outcome of selector resolution in `handle_message` of `maindc.py`
(lines 587-603): either the user-visible unknown-name condition (which the
handler reports as `未知的名稱：{name}`) or a dispatch to a provider with the
mapped model identifier. -/
inductive Dispatch
  | unknownName (name : Str)
  | call (p : Provider) (model : Str)
deriving DecidableEq

/-- Lines 588-603 of `maindc.py`: look the selector up in `NAME_MAPPING`; a
missing key (or a falsy mapped value, per `if not converted_name`) is the
unknown-name condition, otherwise the provider is chosen from the selector. -/
def selectModel (name : Str) : Dispatch :=
  match dictGet NAME_MAPPING name with
  | none => Dispatch.unknownName name
  | some m => if m = [] then Dispatch.unknownName name else Dispatch.call (providerOf name) m

/-! ## Python string helpers used by the command parser

`str.rstrip` / `str.strip` remove the characters Python considers whitespace;
`str.splitlines` splits at Python's line boundaries.  The sets below list the
ASCII and Latin-1 members of those classes (the source's command syntax is
ASCII); the rare higher Unicode whitespace code points are omitted from the
model. -/

/-- Characters stripped by Python `str.strip()` (ASCII/Latin-1 members). -/
def isPySpace (c : Char) : Bool :=
  c = ' ' ∨ c = '\t' ∨ c = '\n' ∨ c = '\r' ∨ c = '\x0b' ∨ c = '\x0c' ∨
  c = '\x1c' ∨ c = '\x1d' ∨ c = '\x1e' ∨ c = '\x1f' ∨ c = '\x85' ∨ c = '\xa0'

/-- Line boundaries of Python `str.splitlines()` (ASCII/Latin-1 members). -/
def isLineBreak (c : Char) : Bool :=
  c = '\n' ∨ c = '\r' ∨ c = '\x0b' ∨ c = '\x0c' ∨
  c = '\x1c' ∨ c = '\x1d' ∨ c = '\x1e' ∨ c = '\x85'

/-- Python `str.rstrip()`. -/
def pyRstrip (s : Str) : Str := (s.reverse.dropWhile isPySpace).reverse

/-- Python `str.lstrip()`. -/
def pyLstrip (s : Str) : Str := s.dropWhile isPySpace

/-- Python `str.strip()`. -/
def pyStrip (s : Str) : Str := pyRstrip (pyLstrip s)

/-- Worker for `pySplitlines`; `acc` holds the reversed current line.  A line
boundary emits the current line; `\r\n` counts as a single boundary; a
boundary at the very end of the text does not open a new line. -/
def splitlinesGo : Str → Str → List Str
  | [], acc => [acc.reverse]
  | c :: rest, acc =>
    if c = '\r' then
      match rest with
      | a :: rest2 =>
        if a = '\n' then
          acc.reverse :: (if rest2 = [] then [] else splitlinesGo rest2 [])
        else
          acc.reverse :: splitlinesGo (a :: rest2) []
      | [] => [acc.reverse]
    else if isLineBreak c then
      acc.reverse :: (if rest = [] then [] else splitlinesGo rest [])
    else
      splitlinesGo rest (c :: acc)

/-- Python `str.splitlines()`. -/
def pySplitlines (s : Str) : List Str :=
  if s = [] then [] else splitlinesGo s []

/-- Python `str.split(sep, 1)` for a one-character separator, as the pair of
the text before the first separator and, when a separator occurs, the text
after it. -/
def splitOnceAt (sep : Char) : Str → Str × Option Str
  | [] => ([], none)
  | c :: rest =>
    if c = sep then ([], some rest)
    else
      let p := splitOnceAt sep rest
      (c :: p.1, p.2)

/-- Python `str.split(sep, 2)` for a one-character separator (at most three
resulting fields). -/
def splitChar2 (sep : Char) (s : Str) : List Str :=
  match splitOnceAt sep s with
  | (a, none) => [a]
  | (a, some r) =>
    match splitOnceAt sep r with
    | (b, none) => [a, b]
    | (b, some r2) => [a, b, r2]

/-- Python `"\n".join(lines)`. -/
def joinWithNL : List Str → Str
  | [] => []
  | [l] => l
  | l :: rest => l ++ '\n' :: joinWithNL rest

/-- The normalisation prefix shared by both inline parsers (lines 566-567 of
`maindc.py` and 188-189 of `main.py`): split into lines, right-strip every
line, and re-join with `\n`. -/
def normalizeContent (raw : Str) : Str :=
  joinWithNL ((pySplitlines raw).map pyRstrip)

/-! ## Command parser

Lines 566-585 of `maindc.py`: the raw content is split into lines, each line
is right-stripped, the lines are re-joined with `\n`; the first line is split
on single spaces with `maxsplit=2`; fewer than three fields is the
user-visible format error (`none` below); otherwise the selector is the
second field and the prompt is the third field, a newline, and the stripped
remainder.  Note that only the remainder is stripped, not the whole prompt. -/

/-- The inline command parse of `handle_message` in `maindc.py`. -/
def parse_maindc (raw : Str) : Option (Str × Str) :=
  match splitChar2 ' ' (splitOnceAt '\n' (normalizeContent raw)).1 with
  | [_, name, rest] =>
    some (name, rest ++ '\n' :: pyStrip ((splitOnceAt '\n' (normalizeContent raw)).2.getD []))
  | _ => none

/-- The inline command parse of `handle_message` in `main.py` (lines 186-197):
same shape, but the selector is additionally stripped and the whole prompt is
stripped at the end. -/
def parse_main_inline (raw : Str) : Option (Str × Str) :=
  match splitChar2 ' ' (splitOnceAt '\n' (normalizeContent raw)).1 with
  | [_, name, rest] =>
    some (pyStrip name, pyStrip (rest ++ '\n' :: ((splitOnceAt '\n' (normalizeContent raw)).2.getD [])))
  | _ => none

/-! ## Provider dispatch (`fetch_openai_response`, lines 435-446, and
`fetch_anthropic_response`, lines 111-432, of `maindc.py`)

The provider SDK calls are awaited network operations; their outcome is
modelled as an `Except` value: `.error` is the call raising an exception
(network, authentication, API error), `.ok` a returned response object.
The source wraps the call and the response extraction in one
`try`/`except Exception`, so any raising step lands in the apology branch. -/

/-- An arbitrary Python exception, carrying its display text. -/
structure PyErr where
  msg : Str
deriving DecidableEq

/-- The fixed apology string returned by both fetch functions on failure
(`抱歉，發生錯誤，無法獲取回覆。`). -/
def apologyMsg : Str := "抱歉，發生錯誤，無法獲取回覆。".toList

/-- The fixed message `fetch_anthropic_response` returns when the response
content is not a list (`Anthropic API 回傳的數據格式異常，請稍後再試。`). -/
def anthropicShapeMsg : Str := "Anthropic API 回傳的數據格式異常，請稍後再試。".toList

/-- The `message.content` field of an OpenAI chat-completion choice; `none`
models a JSON `null`, on which `.strip()` raises `AttributeError`. -/
structure OpenAIMessage where
  content : Option Str
deriving DecidableEq

/-- One element of `response.choices`. -/
structure OpenAIChoice where
  message : OpenAIMessage
deriving DecidableEq

/-- An OpenAI chat-completion response; `choices[0]` raises `IndexError` when
the list is empty. -/
structure OpenAIResponse where
  choices : List OpenAIChoice
deriving DecidableEq

/-- Models `fetch_openai_response` of `maindc.py` (lines 435-446): inside the `try`,
evaluate `response.choices[0].message.content.strip()`; any raised exception
(including the call itself raising) is caught and mapped to the apology. -/
def fetch_openai_response (call : Except PyErr OpenAIResponse) : Str :=
  match call with
  | .error _ => apologyMsg
  | .ok r =>
    match r.choices with
    | [] => apologyMsg
    | c :: _ =>
      match c.message.content with
      | none => apologyMsg
      | some s => pyStrip s

/-- The `message.content` value of an Anthropic response: either a list of
blocks (each `some text` when the block has a `text` attribute, `none`
otherwise) or a non-list value. -/
inductive AnthContent
  | blocks (bs : List (Option Str))
  | nonList
deriving DecidableEq

/-- An Anthropic `messages.create` response object. -/
structure AnthMessage where
  content : AnthContent
deriving DecidableEq

/-- Models `fetch_anthropic_response` of `maindc.py` (lines 111-432): inside the
`try`, join the `text` of every block that has one with newlines and strip;
a non-list content yields the fixed shape message; any raised exception is
caught and mapped to the apology. -/
def fetch_anthropic_response (call : Except PyErr AnthMessage) : Str :=
  match call with
  | .error _ => apologyMsg
  | .ok m =>
    match m.content with
    | .nonList => anthropicShapeMsg
    | .blocks bs => pyStrip (joinWithNL (bs.filterMap id))

/-! ## Orchestrator of `maindc.py` (`handle_message`, lines 514-619)

The handler's observable platform effects are modelled as an action trace;
the awaited platform operations (thread deletion, thread creation, channel
and thread sends) are oracles in an environment record, each an `Except`
that models the await either succeeding or raising.  The body from line 537
runs inside `try`; its result is the action trace plus an optional uncaught
exception, which the `except` block at lines 611-619 absorbs (it only logs:
no message is sent and nothing is re-raised). -/

/-- One observable effect of a handler run. -/
inductive Act
  | providerCall (p : Provider) (model : Str) (prompt : Str)
  | sendChannel (text : Str)
  | createThread (title : Str)
  | sendTarget (text : Str)
  | deleteThread
deriving DecidableEq

/-- The fields of an inbound Discord message that `handle_message` of
`maindc.py` reads.  `ctype` is a thread type exactly when
`isinstance(message.channel, discord.Thread)` holds. -/
structure DcMessage where
  authorIsBot : Bool
  ctype : ChanType
  guildId : Option Int
  channelId : Int
  parentId : Option Int
  content : Str
  mentionsBot : Bool

/-- Oracles for the awaited operations a single `maindc.py` handler run can
perform. -/
structure DcEnv where
  deleteRes : Except PyErr Unit
  errSendRes : Except PyErr Unit
  openaiRes : Except PyErr OpenAIResponse
  anthropicRes : Except PyErr AnthMessage
  createRes : Except PyErr Unit
  sendRes : Nat → Except PyErr Unit

/-- Models `isinstance(message.channel, discord.Thread)`. -/
def isThreadType : ChanType → Bool
  | .publicThread | .privateThread => true
  | _ => false

/-- The format-error message of `maindc.py` (line 572). -/
def formatErrMsg : Str := "⚠️ 訊息格式錯誤，請使用正確格式。".toList

/-- The unknown-name message of `maindc.py` (line 590), naming the selector. -/
def unknownNameMsg (name : Str) : Str := "未知的名稱：".toList ++ name

/-- The title of the thread created for a reply (line 607). -/
def threadTitle (model : Str) : Str := "討論：".toList ++ model

/-- The send loop over the reply chunks (lines 608-609), with the oracle
indexed by the position of the chunk; a raising send aborts the loop with the
exception. -/
def sendAllFrom (res : Nat → Except PyErr Unit) (i : Nat) : List Str → List Act × Option PyErr
  | [] => ([], none)
  | c :: rest =>
    match res i with
    | .error e => ([], some e)
    | .ok _ =>
      let p := sendAllFrom res (i + 1) rest
      (Act.sendTarget c :: p.1, p.2)

/-- The `try` body of `handle_message` in `maindc.py` (lines 537-609), as the
trace of performed effects and the uncaught exception, if one was raised. -/
def maindcBody (msg : DcMessage) (env : DcEnv) : List Act × Option PyErr :=
  let isThread := isThreadType msg.ctype
  if isThread ∧ msg.parentId = none then
    ([], none)
  else if isThread ∧ pyStrip msg.content = "!del".toList then
    match env.deleteRes with
    | .ok _ => ([Act.deleteThread], none)
    | .error e => ([], some e)
  else if msg.mentionsBot then
    match parse_maindc msg.content with
    | none =>
      match env.errSendRes with
      | .ok _ => ([Act.sendChannel formatErrMsg], none)
      | .error e => ([], some e)
    | some (name, userMsg) =>
      match selectModel name with
      | .unknownName n =>
        match env.errSendRes with
        | .ok _ => ([Act.sendChannel (unknownNameMsg n)], none)
        | .error e => ([], some e)
      | .call p model =>
        let reply :=
          match p with
          | .anthropic => fetch_anthropic_response env.anthropicRes
          | .openai => fetch_openai_response env.openaiRes
        let chunks := split_message reply 2000
        let callAct := Act.providerCall p model userMsg
        if isThread then
          let sends := sendAllFrom env.sendRes 0 chunks
          (callAct :: sends.1, sends.2)
        else
          match env.createRes with
          | .error e => ([callAct], some e)
          | .ok _ =>
            let sends := sendAllFrom env.sendRes 0 chunks
            (callAct :: Act.createThread (threadTitle model) :: sends.1, sends.2)
  else ([], none)

/-- Models `handle_message` of `maindc.py` (lines 514-619): the author gate, the
allow-list gate, then the `try` body; the `except Exception` block only logs,
so every exception of the body is absorbed and no further effect happens. -/
def handle_maindc (allowed : List (Int × Int)) (msg : DcMessage) (env : DcEnv) :
    Except PyErr (List Act) :=
  if msg.authorIsBot then .ok []
  else if ¬ is_allowed msg.ctype msg.guildId msg.channelId msg.parentId allowed then .ok []
  else
    match (maindcBody msg env).2 with
    | none => .ok (maindcBody msg env).1
    | some _ => .ok (maindcBody msg env).1

/-! ## Orchestrator of `main.py` (`handle_message`, lines 151-226) -/

/-- An attachment as read by `main.py`: only whether its filename ends in
`.txt` matters for control flow. -/
structure MainAtt where
  isTxt : Bool
deriving DecidableEq

/-- The fields of an inbound message that `handle_message` of `main.py`
reads. -/
structure MainMessage where
  authorIsBot : Bool
  guildId : Option Int
  channelId : Int
  isThread : Bool
  content : Str
  mentionsBot : Bool
  attachments : List MainAtt

/-- Oracles for the awaited operations of a `main.py` handler run.
`readRes` covers the temp-file save and read of the first `.txt`
attachment (both inside `process_attachments`' own `try`). -/
structure MainEnv where
  deleteRes : Except PyErr Unit
  readRes : Except PyErr Str
  errSendRes : Except PyErr Unit
  openaiRes : Except PyErr OpenAIResponse
  createRes : Except PyErr Unit
  replySendRes : Except PyErr Unit

/-- Error strings of `process_attachments` and `handle_message` in
`main.py`. -/
def noAttachMsg : Str := "訊息中沒有附件。".toList

def noTxtMsg : Str := "附件中未包含 .txt 文件。".toList

def attFormatMsg : Str := "格式錯誤，第一行必須包含模型名稱與內容（格式：模型名稱/內容）。".toList

def readFailMsg (e : PyErr) : Str := "讀取文件失敗：".toList ++ e.msg

def mainFormatMsg : Str := "訊息格式錯誤，請使用正確的格式或上傳 .txt 文件。".toList

def unknownModelMsg (name : Str) : Str := "未知的模型名稱：".toList ++ name

def emptyContentMsg : Str := "訊息內容為空，請檢查文件格式。".toList

def genericFailMsg : Str := "處理您的請求時出現錯誤，請稍後重試。".toList

/-- Models the Python substring test `'/' in first_line`. -/
def containsChar (c : Char) (s : Str) : Bool := decide (c ∈ s)

/-- Models `process_attachments(message)` of `main.py` (lines 111-149), returning
`(model_name, user_message, error)`. -/
def process_attachments (atts : List MainAtt) (readRes : Except PyErr Str) :
    Option Str × Option Str × Option Str :=
  if atts = [] then (none, none, some noAttachMsg)
  else
    match atts.find? (fun a => a.isTxt) with
    | none => (none, none, some noTxtMsg)
    | some _ =>
      match readRes with
      | .error e => (none, none, some (readFailMsg e))
      | .ok content =>
        let fl := splitOnceAt '\n' content
        if ¬ containsChar '/' fl.1 then (none, none, some attFormatMsg)
        else
          let mp := splitOnceAt '/' fl.1
          let um0 := pyStrip (mp.2.getD [])
          let um1 :=
            match fl.2 with
            | none => um0
            | some r => um0 ++ '\n' :: pyStrip r
          (some (pyStrip mp.1), some (pyStrip um1), none)

/-- The `try` body of `handle_message` in `main.py` (lines 178-222). -/
def mainBody (msg : MainMessage) (env : MainEnv) : List Act × Option PyErr :=
  let pa := process_attachments msg.attachments env.readRes
  match pa.2.2 with
  | some etext =>
    match env.errSendRes with
    | .ok _ => ([Act.sendChannel etext], none)
    | .error e => ([], some e)
  | none =>
    let inlineNeeded := pa.2.1 = none ∨ pa.2.1 = some []
    let parsed :=
      if inlineNeeded then parse_main_inline msg.content
      else
        match pa.1, pa.2.1 with
        | some mn, some um => some (mn, um)
        | _, _ => none
    match parsed with
    | none =>
      match env.errSendRes with
      | .ok _ => ([Act.sendChannel mainFormatMsg], none)
      | .error e => ([], some e)
    | some (modelName, userMsg) =>
      match dictGet NAME_MAPPING_main modelName with
      | none =>
        match env.errSendRes with
        | .ok _ => ([Act.sendChannel (unknownModelMsg modelName)], none)
        | .error e => ([], some e)
      | some converted =>
        if converted = [] then
          match env.errSendRes with
          | .ok _ => ([Act.sendChannel (unknownModelMsg modelName)], none)
          | .error e => ([], some e)
        else if userMsg = [] then
          match env.errSendRes with
          | .ok _ => ([Act.sendChannel emptyContentMsg], none)
          | .error e => ([], some e)
        else
          let reply := fetch_openai_response env.openaiRes
          let callAct := Act.providerCall Provider.openai converted userMsg
          if msg.isThread then
            match env.replySendRes with
            | .ok _ => ([callAct, Act.sendChannel reply], none)
            | .error e => ([callAct], some e)
          else
            let title :=
              if modelName = [] then "AI 討論串".toList
              else "AI 回覆：".toList ++ modelName
            match env.createRes with
            | .error e => ([callAct], some e)
            | .ok _ =>
              match env.replySendRes with
              | .ok _ => ([callAct, Act.createThread title, Act.sendTarget reply], none)
              | .error e => ([callAct, Act.createThread title], some e)

/-- Models `handle_message` of `main.py` (lines 151-226): author gate, allow-list
gate (`if not guild_id or (guild_id, channel_id) not in allowed_channels`),
the `!del` administrative command (outside the `try`, so a raising delete
propagates), the mention gate, then the `try` body; the `except` block sends
the generic failure message (a raising error-send itself propagates). -/
def handle_main (allowed : List (Int × Int)) (msg : MainMessage) (env : MainEnv) :
    Except PyErr (List Act) :=
  if msg.authorIsBot then .ok []
  else if msg.guildId = none ∨ msg.guildId = some 0 ∨
      ¬ (∃ g, msg.guildId = some g ∧ (g, msg.channelId) ∈ allowed) then .ok []
  else if msg.isThread ∧ pyStrip msg.content = "!del".toList then
    match env.deleteRes with
    | .ok _ => .ok [Act.deleteThread]
    | .error e => .error e
  else if ¬ msg.mentionsBot then .ok []
  else
    match (mainBody msg env).2 with
    | none => .ok (mainBody msg env).1
    | some _ =>
      match env.errSendRes with
      | .ok _ => .ok ((mainBody msg env).1 ++ [Act.sendChannel genericFailMsg])
      | .error e2 => .error e2













/-- A concrete message for the C8 scenario: an allow-listed standard channel,
a bot mention and a well-formed command. -/
def c8msg : DcMessage :=
  ⟨false, ChanType.standard, some 1, 5, none, "@bot 4o hi".toList, true⟩

/-- A concrete environment for the C8 scenario: the provider call succeeds,
but the thread creation for delivering the reply raises. -/
def c8env : DcEnv :=
  ⟨Except.ok (), Except.ok (), Except.ok ⟨[⟨⟨some "ok".toList⟩⟩]⟩,
    Except.ok ⟨AnthContent.nonList⟩, Except.error ⟨"boom".toList⟩, fun _ => Except.ok ()⟩

/-- A concrete `main.py` message for the C8 witness: allow-listed channel,
mention, and a valid `.txt` attachment. -/
def c8msg2 : MainMessage :=
  ⟨false, some 1, 5, false, "@bot 4o hi".toList, true, [⟨true⟩]⟩

/-- A concrete `main.py` environment for the C8 witness: the attachment reads
fine and the provider call succeeds, but the thread creation raises. -/
def c8env2 : MainEnv :=
  ⟨Except.ok (), Except.ok ("4o/hello".toList), Except.ok (),
    Except.ok ⟨[⟨⟨some "ok".toList⟩⟩]⟩, Except.error ⟨"boom".toList⟩, Except.ok ()⟩

/-- The text represented by a packing state: the flushed chunks followed by
the chunk being built. -/
def stJoin (st : SplitState) : Str := st.messages.flatten ++ st.current

/-- All flushed chunks and the running chunk are within the limit. -/
def stBound (m : Nat) (st : SplitState) : Prop :=
  (∀ x ∈ st.messages, x.length ≤ m) ∧ st.current.length ≤ m

/-- All flushed chunks are non-empty. -/
def stNE (st : SplitState) : Prop := ∀ x ∈ st.messages, x ≠ []

/-- The string `f` occurs contiguously inside a flushed chunk or inside the
running chunk. -/
def stKeeps (f : Str) (st : SplitState) : Prop :=
  (∃ x ∈ st.messages, ∃ l r, x = l ++ f ++ r) ∨ (∃ l r, st.current = l ++ f ++ r)

/-- A nine-character text: the letter `a` followed by a fenced region
`` ```bb``` ``. -/
def c1text : Str :=
  'a' :: backtick :: backtick :: backtick :: 'b' :: 'b' :: backtick :: backtick :: [backtick]

/-- A fenced code block of exactly 3000 characters: two three-character fence
markers around 2994 filler characters. -/
def c5block : Str :=
  backtick :: backtick :: backtick :: (List.replicate 2994 'a' ++ [backtick, backtick, backtick])

/-! ## Registry lemmas -/

lemma dictGet_isSome (m : List (Str × Str)) (s : Str) :
    (dictGet m s).isSome = decide (s ∈ m.map Prod.fst) := by
  induction m with
  | nil => simp [dictGet]
  | cons a t ih =>
    by_cases h : a.1 = s
    · simp [dictGet, h]
    · have h2 : ¬ s = a.1 := fun hs => h hs.symm
      simp [dictGet, h, h2, ih]

lemma dictGet_eq_none_of_not_mem (m : List (Str × Str)) (s : Str)
    (h : s ∉ m.map Prod.fst) : dictGet m s = none := by
  have := dictGet_isSome m s
  rw [← Option.not_isSome_iff_eq_none]
  simp [this, h]

/-- Claim C2: a direct-message location is always rejected by `is_allowed`; a
thread location is accepted exactly when it has a parent and the pair of the
server id and the parent channel id is in the allow-list (rejected when no
parent is resolvable), independently of the thread's own channel id; any
other location is accepted exactly when the pair of the server id and its own
channel id is in the allow-list. -/
theorem c2_is_allowed_spec :
    ∀ (allowed : List (Int × Int)) (g cid p : Int) (gOpt pidOpt : Option Int),
      is_allowed ChanType.dm gOpt cid pidOpt allowed = false ∧
      is_allowed ChanType.publicThread (some g) cid (some p) allowed
        = decide ((g, p) ∈ allowed) ∧
      is_allowed ChanType.privateThread (some g) cid (some p) allowed
        = decide ((g, p) ∈ allowed) ∧
      is_allowed ChanType.publicThread gOpt cid none allowed = false ∧
      is_allowed ChanType.privateThread gOpt cid none allowed = false ∧
      is_allowed ChanType.standard (some g) cid pidOpt allowed
        = decide ((g, cid) ∈ allowed) := by
  intro allowed g cid p gOpt pidOpt
  exact ⟨rfl, rfl, rfl, rfl, rfl, rfl⟩

/-- Claim C6: selector resolution on `NAME_MAPPING` is exact-match (the lookup
succeeds exactly when the selector is literally one of the keys, so it is in
particular case-sensitive), and a failed lookup yields the user-visible
unknown-name outcome carrying the offending selector, never a substituted
default model. -/
theorem c6_registry_exact_match :
    (∀ s : Str, (dictGet NAME_MAPPING s).isSome = decide (s ∈ NAME_MAPPING.map Prod.fst)) ∧
    (∀ s : Str, s ∉ NAME_MAPPING.map Prod.fst → selectModel s = Dispatch.unknownName s) := by
  refine ⟨fun s => dictGet_isSome _ s, fun s h => ?_⟩
  unfold selectModel
  rw [dictGet_eq_none_of_not_mem _ _ h]

/-- Witness for C6 at the concrete selectors of the specification:
`unknownmodel` is not a key and resolves to the unknown-name outcome, `4o` is
a key, and the case-variant `4O` is not. -/
theorem c6_registry_exact_match_witness :
    selectModel ("unknownmodel".toList) = Dispatch.unknownName ("unknownmodel".toList) ∧
    (dictGet NAME_MAPPING ("4o".toList)).isSome = true ∧
    (dictGet NAME_MAPPING ("4O".toList)).isSome = false := by
  refine ⟨c6_registry_exact_match.2 ("unknownmodel".toList) (by decide), ?_, ?_⟩
  · rw [c6_registry_exact_match.1 ("4o".toList)]; decide
  · rw [c6_registry_exact_match.1 ("4O".toList)]; decide

/-- Claim C7: whenever the underlying provider call raises (network,
authentication, API failure), or the response is shaped so that extraction
raises (no choices, or a missing content on which `.strip()` raises), the
fetch functions catch the exception and return the fixed apology string, so
the caller always receives an ordinary reply string. -/
theorem c7_provider_failure_contained :
    ∀ (e : PyErr) (r : OpenAIResponse) (ch : OpenAIChoice),
      fetch_openai_response (Except.error e) = apologyMsg ∧
      fetch_anthropic_response (Except.error e) = apologyMsg ∧
      (r.choices = [] → fetch_openai_response (Except.ok r) = apologyMsg) ∧
      (∀ rest, r.choices = ch :: rest → ch.message.content = none →
        fetch_openai_response (Except.ok r) = apologyMsg) := by
  intro e r ch
  refine ⟨rfl, rfl, fun h => ?_, fun rest h hc => ?_⟩
  · obtain ⟨chs⟩ := r
    have h2 : chs = [] := h
    subst h2
    rfl
  · obtain ⟨chs⟩ := r
    have h2 : chs = ch :: rest := h
    subst h2
    obtain ⟨⟨ct⟩⟩ := ch
    have hc2 : ct = none := hc
    subst hc2
    rfl

/-- Witness for C7 at a concrete raising call and a concrete malformed
response. -/
theorem c7_provider_failure_contained_witness :
    fetch_openai_response (Except.error ⟨"connection reset".toList⟩) = apologyMsg ∧
    fetch_anthropic_response (Except.error ⟨"401 unauthorized".toList⟩) = apologyMsg ∧
    fetch_openai_response (Except.ok ⟨[]⟩) = apologyMsg ∧
    fetch_openai_response (Except.ok ⟨[⟨⟨none⟩⟩]⟩) = apologyMsg := by
  refine ⟨?_, ?_, ?_, ?_⟩
  · exact (c7_provider_failure_contained ⟨"connection reset".toList⟩ ⟨[]⟩ ⟨⟨none⟩⟩).1
  · exact (c7_provider_failure_contained ⟨"401 unauthorized".toList⟩ ⟨[]⟩ ⟨⟨none⟩⟩).2.1
  · exact (c7_provider_failure_contained ⟨"x".toList⟩ ⟨[]⟩ ⟨⟨none⟩⟩).2.2.1 rfl
  · exact (c7_provider_failure_contained ⟨"x".toList⟩ ⟨[⟨⟨none⟩⟩]⟩ ⟨⟨none⟩⟩).2.2.2 [] rfl rfl

/-- Claim C9: a message authored by the bot itself is dropped by the very
first check of both handlers: the run has no observable effect at all (no
send, no thread creation or deletion, no provider call), whatever the
channel, content, attachments and mentions are. -/
theorem c9_bot_author_ignored :
    ∀ (allowed : List (Int × Int)) (msg : DcMessage) (env : DcEnv)
      (allowed2 : List (Int × Int)) (msg2 : MainMessage) (env2 : MainEnv),
      msg.authorIsBot = true → msg2.authorIsBot = true →
      handle_maindc allowed msg env = Except.ok [] ∧
      handle_main allowed2 msg2 env2 = Except.ok [] := by
  intro allowed msg env allowed2 msg2 env2 h1 h2
  constructor
  · unfold handle_maindc
    rw [if_pos h1]
  · unfold handle_main
    rw [if_pos h2]

/-- Witness for C9: a concrete bot-authored message in an allow-listed
channel, with a mention and deletable content, still produces the empty
trace in both handlers. -/
theorem c9_bot_author_ignored_witness :
    handle_maindc [(1, 2)]
      ⟨true, ChanType.standard, some 1, 2, none, "@bot 4o hi".toList, true⟩
      ⟨Except.ok (), Except.ok (), Except.ok ⟨[]⟩, Except.ok ⟨AnthContent.nonList⟩,
        Except.ok (), fun _ => Except.ok ()⟩ = Except.ok [] ∧
    handle_main [(1, 2)]
      ⟨true, some 1, 2, false, "@bot 4o hi".toList, true, []⟩
      ⟨Except.ok (), Except.ok [], Except.ok (), Except.ok ⟨[]⟩,
        Except.ok (), Except.ok ()⟩ = Except.ok [] :=
  c9_bot_author_ignored [(1, 2)] _ _ [(1, 2)] _ _ rfl rfl

/-- Counterexample to claim C8: in `maindc.py` an uncaught failure between
content extraction and delivery (here: the thread creation raising) is caught
and absorbed, but no user-visible failure message is sent — the resulting
trace is exactly the provider call, with no send action of any kind. -/
theorem c8_counterexample :
    handle_maindc [(1, 5)] c8msg c8env
      = Except.ok [Act.providerCall Provider.openai ("chatgpt-4o".toList) ("hi\n".toList)] ∧
    (maindcBody c8msg c8env).2 = some ⟨"boom".toList⟩ := by
  constructor
  · rfl
  · decide

/-- Amended claim C8: any failure raised inside the `try` body is caught at
the orchestrator boundary and never propagates out of `maindc.py`'s handler;
in `maindc.py` the handler then returns silently, emitting exactly the
actions performed before the failure and in particular no user-visible
failure message; in `main.py` the handler instead appends the generic
user-visible failure message to the trace (when that send itself
succeeds). -/
theorem c8_amended_error_boundary :
    (∀ (allowed : List (Int × Int)) (msg : DcMessage) (env : DcEnv),
      ∃ acts, handle_maindc allowed msg env = Except.ok acts) ∧
    (∀ (allowed : List (Int × Int)) (msg : DcMessage) (env : DcEnv),
      msg.authorIsBot = false →
      is_allowed msg.ctype msg.guildId msg.channelId msg.parentId allowed = true →
      handle_maindc allowed msg env = Except.ok (maindcBody msg env).1) ∧
    (∀ (allowed2 : List (Int × Int)) (msg2 : MainMessage) (env2 : MainEnv) (g : Int),
      msg2.authorIsBot = false →
      msg2.guildId = some g → g ≠ 0 → (g, msg2.channelId) ∈ allowed2 →
      ¬ (msg2.isThread = true ∧ pyStrip msg2.content = "!del".toList) →
      msg2.mentionsBot = true →
      (mainBody msg2 env2).2.isSome = true →
      env2.errSendRes = Except.ok () →
      handle_main allowed2 msg2 env2
        = Except.ok ((mainBody msg2 env2).1 ++ [Act.sendChannel genericFailMsg])) := by
  refine ⟨?_, ?_, ?_⟩
  · intro allowed msg env
    unfold handle_maindc
    by_cases h1 : msg.authorIsBot
    · rw [if_pos h1]; exact ⟨[], rfl⟩
    · rw [if_neg h1]
      by_cases h2 : ¬ is_allowed msg.ctype msg.guildId msg.channelId msg.parentId allowed
      · rw [if_pos h2]; exact ⟨[], rfl⟩
      · rw [if_neg h2]
        refine ⟨(maindcBody msg env).1, ?_⟩
        cases (maindcBody msg env).2 <;> rfl
  · intro allowed msg env h1 h2
    unfold handle_maindc
    rw [if_neg (by simp [h1]), if_neg (by simp [h2])]
    cases (maindcBody msg env).2 <;> rfl
  · intro allowed2 msg2 env2 g h1 h2 h3 h4 h5 h6 h7 h8
    unfold handle_main
    rw [if_neg (by simp [h1])]
    rw [if_neg ?hgate]
    case hgate =>
      rintro (hh | hh | hh)
      · rw [h2] at hh; exact Option.noConfusion hh
      · rw [h2] at hh; exact h3 (Option.some.injEq .. ▸ hh)
      · exact hh ⟨g, h2, h4⟩
    rw [if_neg h5, if_neg (by simp [h6])]
    obtain ⟨e, he⟩ := Option.isSome_iff_exists.mp h7
    rw [he, h8]

/-- Witness for the amended claim C8 at the concrete C8 scenario. -/
theorem c8_amended_error_boundary_witness :
    handle_maindc [(1, 5)] c8msg c8env = Except.ok (maindcBody c8msg c8env).1 ∧
    handle_main [(1, 5)] c8msg2 c8env2
      = Except.ok ((mainBody c8msg2 c8env2).1 ++ [Act.sendChannel genericFailMsg]) := by
  constructor
  · exact c8_amended_error_boundary.2.1 [(1, 5)] c8msg c8env rfl (by decide)
  · exact c8_amended_error_boundary.2.2 [(1, 5)] c8msg2 c8env2 1 rfl rfl (by decide)
      (by decide) (by decide) rfl (by decide) rfl

/-- Counterexample to claim C4: on the single-line message `@bot 4o hello`
the parser of `maindc.py` yields the prompt `hello\n` — only the remainder is
stripped, not the whole result — and not the fully trimmed `hello` the claim
describes. -/
theorem c4_counterexample :
    parse_maindc ("@bot 4o hello".toList) = some ("4o".toList, "hello\n".toList) ∧
    parse_maindc ("@bot 4o hello".toList) ≠ some ("4o".toList, "hello".toList) := by
  constructor
  · decide
  · decide

/-! ## Command-parser lemmas -/

lemma splitOnceAt_not_mem {sep : Char} {a : Str} (h : sep ∉ a) :
    splitOnceAt sep a = (a, none) := by
  induction a with
  | nil => rfl
  | cons c cs ih =>
    have hc : ¬ c = sep := by rintro rfl; exact h (List.mem_cons_self _ _)
    have hcs : sep ∉ cs := fun hm => h (List.mem_cons_of_mem _ hm)
    simp [splitOnceAt, hc, ih hcs]

lemma splitOnceAt_append_sep {sep : Char} {a : Str} (b : Str) (h : sep ∉ a) :
    splitOnceAt sep (a ++ sep :: b) = (a, some b) := by
  induction a with
  | nil => simp [splitOnceAt]
  | cons c cs ih =>
    have hc : ¬ c = sep := by rintro rfl; exact h (List.mem_cons_self _ _)
    have hcs : sep ∉ cs := fun hm => h (List.mem_cons_of_mem _ hm)
    simp [splitOnceAt, hc, ih hcs]

lemma splitChar2_three {sep : Char} {t0 sel : Str} (rest : Str)
    (h0 : sep ∉ t0) (h1 : sep ∉ sel) :
    splitChar2 sep (t0 ++ sep :: (sel ++ sep :: rest)) = [t0, sel, rest] := by
  simp [splitChar2, splitOnceAt_append_sep _ h0, splitOnceAt_append_sep _ h1]

lemma splitlinesGo_cons_other (c : Char) (cs acc : Str)
    (hr : ¬ c = '\r') (hb : isLineBreak c = false) :
    splitlinesGo (c :: cs) acc = splitlinesGo cs (c :: acc) := by
  rw [splitlinesGo.eq_def]
  simp [hr, hb]

lemma splitlinesGo_cons_break (c : Char) (cs acc : Str)
    (hr : ¬ c = '\r') (hb : isLineBreak c = true) :
    splitlinesGo (c :: cs) acc
      = acc.reverse :: (if cs = [] then [] else splitlinesGo cs []) := by
  rw [splitlinesGo.eq_def]
  simp [hr, hb]

lemma splitlinesGo_ne_nil (s : Str) : ∀ acc, splitlinesGo s acc ≠ [] := by
  induction s with
  | nil => intro acc; rw [splitlinesGo.eq_def]; simp
  | cons c cs ih =>
    intro acc
    by_cases hr : c = '\r'
    · subst hr
      cases cs with
      | nil => rw [splitlinesGo.eq_def]; simp
      | cons a rest2 =>
        by_cases ha : a = '\n' <;> (rw [splitlinesGo.eq_def]; simp [ha])
    · by_cases hb : isLineBreak c
      · rw [splitlinesGo_cons_break c cs acc hr hb]; simp
      · rw [splitlinesGo_cons_other c cs acc hr (by simpa using hb)]
        exact ih (c :: acc)

lemma pySplitlines_ne_nil {t : Str} (h : t ≠ []) : pySplitlines t ≠ [] := by
  unfold pySplitlines
  rw [if_neg h]
  exact splitlinesGo_ne_nil t []

lemma splitlinesGo_append_newline {l : Str} (t : Str)
    (h : ∀ c ∈ l, isLineBreak c = false) :
    ∀ acc, splitlinesGo (l ++ '\n' :: t) acc
      = (acc.reverse ++ l) :: (if t = [] then [] else splitlinesGo t []) := by
  induction l with
  | nil =>
    intro acc
    rw [List.nil_append,
      splitlinesGo_cons_break '\n' t acc (by decide) (by decide)]
    simp
  | cons c cs ih =>
    intro acc
    have hc : isLineBreak c = false := h c (List.mem_cons_self _ _)
    have hr : ¬ c = '\r' := by rintro rfl; exact absurd hc (by decide)
    have hcs : ∀ x ∈ cs, isLineBreak x = false := fun x hm => h x (List.mem_cons_of_mem _ hm)
    rw [List.cons_append, splitlinesGo_cons_other c _ acc hr hc, ih hcs (c :: acc)]
    simp

lemma pySplitlines_newline {l : Str} (t : Str) (h : ∀ c ∈ l, isLineBreak c = false) :
    pySplitlines (l ++ '\n' :: t) = l :: pySplitlines t := by
  have hne : l ++ '\n' :: t ≠ [] := by simp
  unfold pySplitlines
  rw [if_neg hne, splitlinesGo_append_newline t h []]
  simp

lemma length_dropWhile_le (p : Char → Bool) (cs : Str) :
    (List.dropWhile p cs).length ≤ cs.length := by
  induction cs with
  | nil => simp
  | cons c t ih =>
    rw [List.dropWhile_cons, List.length_cons]
    split
    · omega
    · simp

lemma dropWhile_head_false {p : Char → Bool} {c : Char} {cs : Str}
    (h : List.dropWhile p (c :: cs) = c :: cs) : p c = false := by
  by_cases hp : p c = true
  · rw [List.dropWhile_cons, if_pos hp] at h
    have hlen := congrArg List.length h
    have hle := length_dropWhile_le p cs
    simp only [List.length_cons] at hlen
    omega
  · simpa using hp

lemma pyRstrip_eq_self_append {b : Str} (hb : pyRstrip b = b) (hne : b ≠ []) (a : Str) :
    pyRstrip (a ++ b) = a ++ b := by
  unfold pyRstrip at hb ⊢
  have hb2 : List.dropWhile isPySpace b.reverse = b.reverse := by
    have := congrArg List.reverse hb
    simpa using this
  obtain ⟨c, cs, hcc⟩ : ∃ c cs, b.reverse = c :: cs := by
    cases hcr : b.reverse with
    | nil => exact absurd (by simpa using hcr) hne
    | cons c cs => exact ⟨c, cs, rfl⟩
  have hpc : isPySpace c = false := dropWhile_head_false (by rw [← hcc]; exact hb2)
  have hrev : (a ++ b).reverse = c :: (cs ++ a.reverse) := by
    rw [List.reverse_append, hcc]; simp
  rw [hrev, List.dropWhile_cons, if_neg (by simp [hpc]), ← hrev, List.reverse_reverse]

lemma joinWithNL_cons_ne {l : Str} {r : List Str} (h : r ≠ []) :
    joinWithNL (l :: r) = l ++ '\n' :: joinWithNL r := by
  cases r with
  | nil => exact absurd rfl h
  | cons x xs => rfl

/-- Amended claim C4: for a raw message whose first line is
`t0 ⬝ ' ' ⬝ sel ⬝ ' ' ⬝ rest` (with `t0` and `sel` space-free, the line free
of line breaks and `rest` non-empty with no trailing whitespace), followed by
a newline and an arbitrary remainder, the `maindc.py` parser returns the
selector `sel` and the prompt `rest ++ "\n" ++ strip(normalize(tail))`: the
remaining first-line text, a newline, and the per-line-normalised remainder
with only ITS OWN surrounding whitespace stripped — the whole result is not
re-trimmed (so an empty remainder leaves a trailing newline on the prompt;
`main.py`'s variant additionally strips the whole result as the original
claim stated). -/
theorem c4_amended_parse :
    ∀ t0 sel rest tail : Str,
      ' ' ∉ t0 → ' ' ∉ sel →
      (∀ c ∈ t0 ++ ' ' :: (sel ++ ' ' :: rest), isLineBreak c = false) →
      rest ≠ [] → pyRstrip rest = rest →
      parse_maindc (t0 ++ ' ' :: (sel ++ ' ' :: (rest ++ '\n' :: tail)))
        = some (sel, rest ++ '\n' :: pyStrip (normalizeContent tail)) := by
  intro t0 sel rest tail h0 h1 h2 h3 h4
  have hraw : t0 ++ ' ' :: (sel ++ ' ' :: (rest ++ '\n' :: tail))
      = (t0 ++ ' ' :: (sel ++ ' ' :: rest)) ++ '\n' :: tail := by simp
  have hflr : pyRstrip (t0 ++ ' ' :: (sel ++ ' ' :: rest))
      = t0 ++ ' ' :: (sel ++ ' ' :: rest) := by
    have hsh : t0 ++ ' ' :: (sel ++ ' ' :: rest) = (t0 ++ ' ' :: sel ++ [' ']) ++ rest := by
      simp
    rw [hsh]
    exact pyRstrip_eq_self_append h4 h3 _
  have hnl : ('\n' : Char) ∉ t0 ++ ' ' :: (sel ++ ' ' :: rest) := by
    intro hm
    exact absurd (h2 _ hm) (by decide)
  rw [hraw]
  by_cases ht : tail = []
  · subst ht
    have hnorm : normalizeContent ((t0 ++ ' ' :: (sel ++ ' ' :: rest)) ++ '\n' :: [])
        = t0 ++ ' ' :: (sel ++ ' ' :: rest) := by
      unfold normalizeContent
      rw [pySplitlines_newline [] h2, List.map_cons, hflr]
      simp [pySplitlines, joinWithNL]
    unfold parse_maindc
    rw [hnorm, splitOnceAt_not_mem hnl]
    simp only [Option.getD_none]
    rw [splitChar2_three rest h0 h1]
    rfl
  · have hnorm : normalizeContent ((t0 ++ ' ' :: (sel ++ ' ' :: rest)) ++ '\n' :: tail)
        = (t0 ++ ' ' :: (sel ++ ' ' :: rest)) ++ '\n' :: normalizeContent tail := by
      unfold normalizeContent
      rw [pySplitlines_newline tail h2, List.map_cons, hflr]
      exact joinWithNL_cons_ne (by simp [pySplitlines_ne_nil ht])
    unfold parse_maindc
    rw [hnorm, splitOnceAt_append_sep _ hnl]
    simp only [Option.getD_some]
    rw [splitChar2_three rest h0 h1]

/-- Witness for the amended claim C4 at the specification's own example
`@bot 4o hello\nworld` (where the prompt formula evaluates to
`hello\nworld`). -/
theorem c4_amended_parse_witness :
    parse_maindc ("@bot".toList ++ ' ' :: ("4o".toList ++ ' ' :: ("hello".toList ++ '\n' :: "world".toList)))
      = some ("4o".toList, "hello".toList ++ '\n' :: pyStrip (normalizeContent ("world".toList))) ∧
    parse_maindc ("@bot 4o hello\nworld".toList) = some ("4o".toList, "hello\nworld".toList) := by
  constructor
  · exact c4_amended_parse ("@bot".toList) ("4o".toList) ("hello".toList) ("world".toList)
      (by decide) (by decide) (by decide) (by decide) (by decide)
  · decide

/-! ## Segmenter lemmas, phase 1: the fence scan -/

lemma findClose_eq {s inner rest : Str} (h : findClose s = some (inner, rest)) :
    s = inner ++ backtick :: backtick :: backtick :: rest := by
  induction s generalizing inner rest with
  | nil => simp [findClose] at h
  | cons a t ih =>
    cases t with
    | nil => simp [findClose] at h
    | cons b u =>
      cases u with
      | nil => simp [findClose] at h
      | cons c r =>
        rw [findClose] at h
        by_cases hf : a = backtick ∧ b = backtick ∧ c = backtick
        · obtain ⟨ha, hb2, hc2⟩ := hf
          subst ha; subst hb2; subst hc2
          rw [if_pos ⟨rfl, rfl, rfl⟩] at h
          simp only [Option.some.injEq, Prod.mk.injEq] at h
          obtain ⟨h1, h2⟩ := h
          subst h1; subst h2
          simp
        · rw [if_neg hf] at h
          cases hfc : findClose (b :: c :: r) with
          | none => rw [hfc] at h; simp at h
          | some p =>
            obtain ⟨i2, r2⟩ := p
            rw [hfc] at h
            simp only [Option.map_some', Option.some.injEq, Prod.mk.injEq] at h
            obtain ⟨h1, h2⟩ := h
            subst h1; subst h2
            rw [List.cons_append]
            exact congrArg (List.cons a) (ih hfc)

lemma splitFirstFence_eq {s pre f rest : Str}
    (h : splitFirstFence s = some (pre, f, rest)) :
    s = pre ++ f ++ rest ∧
      ∃ inner, f = backtick :: backtick :: backtick :: (inner ++ [backtick, backtick, backtick]) := by
  induction s generalizing pre f rest with
  | nil => simp [splitFirstFence] at h
  | cons a t ih =>
    cases t with
    | nil => simp [splitFirstFence] at h
    | cons b u =>
      cases u with
      | nil => simp [splitFirstFence] at h
      | cons c r =>
        rw [splitFirstFence] at h
        by_cases hf : a = backtick ∧ b = backtick ∧ c = backtick
        · obtain ⟨ha, hb2, hc2⟩ := hf
          subst ha; subst hb2; subst hc2
          rw [if_pos ⟨rfl, rfl, rfl⟩] at h
          cases hfc : findClose r with
          | none => rw [hfc] at h; simp at h
          | some p =>
            obtain ⟨inner, after⟩ := p
            rw [hfc] at h
            simp only [Option.some.injEq, Prod.mk.injEq] at h
            obtain ⟨h1, h2, h3⟩ := h
            subst h1; subst h2; subst h3
            refine ⟨?_, inner, rfl⟩
            rw [findClose_eq hfc]
            simp
        · rw [if_neg hf] at h
          cases hfc : splitFirstFence (b :: c :: r) with
          | none => rw [hfc] at h; simp at h
          | some p =>
            obtain ⟨p1, p2, p3⟩ := p
            rw [hfc] at h
            simp only [Option.map_some', Option.some.injEq, Prod.mk.injEq] at h
            obtain ⟨h1, h2, h3⟩ := h
            subst h1; subst h2; subst h3
            obtain ⟨hs, hex⟩ := ih hfc
            refine ⟨?_, hex⟩
            rw [List.cons_append, List.cons_append]
            exact congrArg (List.cons a) hs

lemma splitFirstFence_rest_lt {s pre f rest : Str}
    (h : splitFirstFence s = some (pre, f, rest)) : rest.length + 6 ≤ s.length := by
  obtain ⟨hs, inner, hf⟩ := splitFirstFence_eq h
  subst hf
  rw [hs]
  simp [List.length_append]
  omega

lemma splitPartsF_succ (fuel : Nat) (a : Char) (t : Str) :
    splitPartsF (fuel + 1) (a :: t)
      = match splitFirstFence (a :: t) with
        | none => [a :: t]
        | some (pre, f, rest) => (if pre = [] then [f] else [pre, f]) ++ splitPartsF fuel rest := rfl

lemma splitPartsF_nil (fuel : Nat) : splitPartsF fuel [] = [] := by
  cases fuel <;> rfl

lemma findallF_succ (fuel : Nat) (a : Char) (t : Str) :
    findallF (fuel + 1) (a :: t)
      = match splitFirstFence (a :: t) with
        | none => []
        | some (_, f, rest) => f :: findallF fuel rest := rfl

lemma findallF_nil (fuel : Nat) : findallF fuel [] = [] := by
  cases fuel <;> rfl

lemma chunksOfF_succ (fuel n : Nat) (a : Char) (t : Str) :
    chunksOfF (fuel + 1) n (a :: t)
      = (a :: t).take n :: chunksOfF fuel n ((a :: t).drop n) := rfl

lemma chunksOfF_nil (fuel n : Nat) : chunksOfF fuel n [] = [] := by
  cases fuel <;> rfl

lemma splitPartsF_flatten : ∀ fuel s, s.length ≤ fuel → (splitPartsF fuel s).flatten = s := by
  intro fuel
  induction fuel with
  | zero =>
    intro s hs
    have h0 : s = [] := List.eq_nil_of_length_eq_zero (Nat.le_zero.mp hs)
    subst h0
    rfl
  | succ n ih =>
    intro s hs
    cases s with
    | nil => rfl
    | cons a t =>
      rw [splitPartsF_succ]
      cases hsf : splitFirstFence (a :: t) with
      | none => simp
      | some triple =>
        obtain ⟨pre, f, rest⟩ := triple
        have hrest : rest.length ≤ n := by
          have := splitFirstFence_rest_lt hsf
          simp only [List.length_cons] at this hs
          omega
        have hj := ih rest hrest
        obtain ⟨hs2, inner, hf⟩ := splitFirstFence_eq hsf
        by_cases hp : pre = []
        · subst hp
          simp [hj, hs2]
        · simp [hp, hj, hs2]

lemma splitParts_flatten (s : Str) : (splitParts s).flatten = s :=
  splitPartsF_flatten s.length s le_rfl

lemma findallF_shape : ∀ fuel s f, f ∈ findallF fuel s →
    ∃ inner, f = backtick :: backtick :: backtick :: (inner ++ [backtick, backtick, backtick]) := by
  intro fuel
  induction fuel with
  | zero =>
    intro s f hf
    rw [show findallF 0 s = [] by cases s <;> rfl] at hf
    exact absurd hf (List.not_mem_nil f)
  | succ n ih =>
    intro s f hf
    cases s with
    | nil => exact absurd hf (List.not_mem_nil f)
    | cons a t =>
      rw [findallF_succ] at hf
      cases hsf : splitFirstFence (a :: t) with
      | none => rw [hsf] at hf; exact absurd hf (List.not_mem_nil f)
      | some triple =>
        obtain ⟨pre, f2, rest⟩ := triple
        rw [hsf] at hf
        simp only [List.mem_cons] at hf
        cases hf with
        | inl h => subst h; exact (splitFirstFence_eq hsf).2
        | inr h => exact ih rest f h

lemma findall_mem_ne_nil {s f : Str} (hf : f ∈ findall s) : f ≠ [] := by
  obtain ⟨inner, hi⟩ := findallF_shape s.length s f hf
  subst hi
  simp

lemma findallF_subset : ∀ fuel s f, f ∈ findallF fuel s → f ∈ splitPartsF fuel s := by
  intro fuel
  induction fuel with
  | zero =>
    intro s f hf
    rw [show findallF 0 s = [] by cases s <;> rfl] at hf
    exact absurd hf (List.not_mem_nil f)
  | succ n ih =>
    intro s f hf
    cases s with
    | nil => exact absurd hf (List.not_mem_nil f)
    | cons a t =>
      rw [findallF_succ] at hf
      rw [splitPartsF_succ]
      cases hsf : splitFirstFence (a :: t) with
      | none => rw [hsf] at hf; exact absurd hf (List.not_mem_nil f)
      | some triple =>
        obtain ⟨pre, f2, rest⟩ := triple
        rw [hsf] at hf
        simp only [List.mem_cons] at hf
        cases hf with
        | inl h =>
          subst h
          apply List.mem_append_left
          by_cases hp : pre = [] <;> simp [hp]
        | inr h =>
          exact List.mem_append_right _ (ih rest f h)

lemma findall_subset_splitParts {s f : Str} (hf : f ∈ findall s) : f ∈ splitParts s :=
  findallF_subset s.length s f hf

lemma chunksOfF_spec : ∀ fuel n s, 1 ≤ n → s.length ≤ fuel →
    (chunksOfF fuel n s).flatten = s ∧ ∀ c ∈ chunksOfF fuel n s, c.length ≤ n ∧ c ≠ [] := by
  intro fuel
  induction fuel with
  | zero =>
    intro n s h1 h2
    have h0 : s = [] := List.eq_nil_of_length_eq_zero (Nat.le_zero.mp h2)
    subst h0
    exact ⟨rfl, by intro c hc; exact absurd hc (List.not_mem_nil c)⟩
  | succ m ih =>
    intro n s h1 h2
    cases s with
    | nil => exact ⟨rfl, by intro c hc; exact absurd hc (List.not_mem_nil c)⟩
    | cons a t =>
      rw [chunksOfF_succ]
      have hdl : ((a :: t).drop n).length ≤ m := by
        simp only [List.length_drop, List.length_cons]
        simp only [List.length_cons] at h2
        omega
      obtain ⟨ihj, ihm⟩ := ih n ((a :: t).drop n) h1 hdl
      refine ⟨by simp [ihj], ?_⟩
      intro c hc
      simp only [List.mem_cons] at hc
      cases hc with
      | inl h =>
        subst h
        refine ⟨by simp only [List.length_take]; omega, ?_⟩
        cases n with
        | zero => omega
        | succ k => simp
      | inr h => exact ihm c h

lemma chunksOf_flatten {n : Nat} (s : Str) (h1 : 1 ≤ n) : (chunksOf n s).flatten = s :=
  (chunksOfF_spec s.length n s h1 le_rfl).1

lemma chunksOf_mem {n : Nat} {s c : Str} (h1 : 1 ≤ n) (hc : c ∈ chunksOf n s) :
    c.length ≤ n ∧ c ≠ [] :=
  (chunksOfF_spec s.length n s h1 le_rfl).2 c hc

/-! ## Segmenter lemmas, phase 2: the greedy packing loop -/

lemma pushChunkText_join (m : Nat) (st : SplitState) (c : Str) :
    stJoin (pushChunkText m st c) = stJoin st ++ c := by
  unfold pushChunkText stJoin
  split
  · simp
  · simp

lemma foldl_pushChunkText_join (m : Nat) (l : List Str) :
    ∀ st, stJoin (l.foldl (pushChunkText m) st) = stJoin st ++ l.flatten := by
  induction l with
  | nil => intro st; simp
  | cons x xs ih =>
    intro st
    rw [List.foldl_cons, ih, pushChunkText_join]
    simp

lemma processPart_join {m : Nat} (h1 : 1 ≤ m) (st : SplitState) {p : Str}
    (hp : hasTriple p = true → p.length ≤ m) :
    stJoin (processPart m st p) = stJoin st ++ p := by
  unfold processPart
  by_cases hlen : p.length > m
  · rw [if_pos hlen]
    have hnt : hasTriple p = false := by
      cases hht : hasTriple p
      · rfl
      · exact absurd (hp hht) (by omega)
    rw [hnt]
    simp only [Bool.false_eq_true, if_false]
    rw [foldl_pushChunkText_join, chunksOf_flatten p h1]
  · rw [if_neg hlen, pushChunkText_join]

lemma foldl_processPart_join {m : Nat} (h1 : 1 ≤ m) (parts : List Str)
    (hgood : ∀ p ∈ parts, hasTriple p = true → p.length ≤ m) :
    ∀ st, stJoin (parts.foldl (processPart m) st) = stJoin st ++ parts.flatten := by
  induction parts with
  | nil => intro st; simp
  | cons x xs ih =>
    intro st
    rw [List.foldl_cons,
      ih (fun p hp => hgood p (List.mem_cons_of_mem _ hp)),
      processPart_join h1 st (hgood x (List.mem_cons_self _ _))]
    simp

lemma pushChunkText_bound {m : Nat} {st : SplitState} {c : Str}
    (hc : c.length ≤ m) (h : stBound m st) : stBound m (pushChunkText m st c) := by
  obtain ⟨hm, hcur⟩ := h
  unfold pushChunkText
  split
  · refine ⟨?_, hc⟩
    intro x hx
    rcases List.mem_append.mp hx with hx | hx
    · exact hm x hx
    · rw [List.mem_singleton.mp hx]; exact hcur
  · next hcond =>
    refine ⟨hm, ?_⟩
    rw [List.length_append]
    by_cases hemp : st.current = []
    · simp [hemp]; omega
    · have : ¬ st.current.length + c.length > m := fun hgt => hcond ⟨hgt, hemp⟩
      omega

lemma pushCodeblock_bound {m : Nat} {st : SplitState} {cb : Str}
    (h1 : 1 ≤ m) (h : stBound m st) : stBound m (pushCodeblock m st cb) := by
  obtain ⟨hm, hcur⟩ := h
  unfold pushCodeblock
  split
  · refine ⟨?_, hcur⟩
    intro x hx
    rcases List.mem_append.mp hx with hx | hx
    · exact hm x hx
    · exact (chunksOf_mem h1 hx).1
  · next hbig =>
    have hcb : cb.length ≤ m := by omega
    split
    · refine ⟨?_, by simp⟩
      intro x hx
      rcases List.mem_append.mp hx with hx | hx
      · rcases List.mem_append.mp hx with hx | hx
        · exact hm x hx
        · rw [List.mem_singleton.mp hx]; exact hcur
      · rw [List.mem_singleton.mp hx]; exact hcb
    · refine ⟨?_, hcur⟩
      intro x hx
      rcases List.mem_append.mp hx with hx | hx
      · exact hm x hx
      · rw [List.mem_singleton.mp hx]; exact hcb

lemma foldl_pushChunkText_bound {m : Nat} (l : List Str)
    (hl : ∀ c ∈ l, c.length ≤ m) :
    ∀ st, stBound m st → stBound m (l.foldl (pushChunkText m) st) := by
  induction l with
  | nil => intro st h; exact h
  | cons x xs ih =>
    intro st h
    rw [List.foldl_cons]
    exact ih (fun c hc => hl c (List.mem_cons_of_mem _ hc)) _
      (pushChunkText_bound (hl x (List.mem_cons_self _ _)) h)

lemma foldl_pushCodeblock_bound {m : Nat} (h1 : 1 ≤ m) (l : List Str) :
    ∀ st, stBound m st → stBound m (l.foldl (pushCodeblock m) st) := by
  induction l with
  | nil => intro st h; exact h
  | cons x xs ih =>
    intro st h
    rw [List.foldl_cons]
    exact ih _ (pushCodeblock_bound h1 h)

lemma processPart_bound {m : Nat} (h1 : 1 ≤ m) {st : SplitState} (p : Str)
    (h : stBound m st) : stBound m (processPart m st p) := by
  unfold processPart
  by_cases hlen : p.length > m
  · rw [if_pos hlen]
    by_cases hht : hasTriple p
    · rw [if_pos hht]
      exact foldl_pushCodeblock_bound h1 _ _ h
    · rw [if_neg hht]
      exact foldl_pushChunkText_bound _ (fun c hc => (chunksOf_mem h1 hc).1) _ h
  · rw [if_neg hlen]
    exact pushChunkText_bound (by omega) h

lemma foldl_processPart_bound {m : Nat} (h1 : 1 ≤ m) (parts : List Str) :
    ∀ st, stBound m st → stBound m (parts.foldl (processPart m) st) := by
  induction parts with
  | nil => intro st h; exact h
  | cons x xs ih =>
    intro st h
    rw [List.foldl_cons]
    exact ih _ (processPart_bound h1 x h)

lemma pushChunkText_ne {m : Nat} {st : SplitState} (c : Str)
    (h : stNE st) : stNE (pushChunkText m st c) := by
  unfold pushChunkText
  split
  · next hcond =>
    intro x hx
    rcases List.mem_append.mp hx with hx | hx
    · exact h x hx
    · rw [List.mem_singleton.mp hx]; exact hcond.2
  · exact h

lemma pushCodeblock_ne {m : Nat} {st : SplitState} {cb : Str}
    (h1 : 1 ≤ m) (hcb : cb ≠ []) (h : stNE st) : stNE (pushCodeblock m st cb) := by
  unfold pushCodeblock
  split
  · intro x hx
    rcases List.mem_append.mp hx with hx | hx
    · exact h x hx
    · exact (chunksOf_mem h1 hx).2
  · split
    · next hcond =>
      intro x hx
      rcases List.mem_append.mp hx with hx | hx
      · rcases List.mem_append.mp hx with hx | hx
        · exact h x hx
        · rw [List.mem_singleton.mp hx]; exact hcond.2
      · rw [List.mem_singleton.mp hx]; exact hcb
    · intro x hx
      rcases List.mem_append.mp hx with hx | hx
      · exact h x hx
      · rw [List.mem_singleton.mp hx]; exact hcb

lemma processPart_ne {m : Nat} (h1 : 1 ≤ m) {st : SplitState} (p : Str)
    (h : stNE st) : stNE (processPart m st p) := by
  unfold processPart
  by_cases hlen : p.length > m
  · rw [if_pos hlen]
    by_cases hht : hasTriple p
    · rw [if_pos hht]
      have : ∀ l : List Str, (∀ cb ∈ l, cb ≠ []) →
          ∀ st, stNE st → stNE (l.foldl (pushCodeblock m) st) := by
        intro l
        induction l with
        | nil => intro _ st h; exact h
        | cons x xs ih =>
          intro hl st hst
          rw [List.foldl_cons]
          exact ih (fun cb hcb => hl cb (List.mem_cons_of_mem _ hcb)) _
            (pushCodeblock_ne h1 (hl x (List.mem_cons_self _ _)) hst)
      exact this _ (fun cb hcb => findall_mem_ne_nil hcb) st h
    · rw [if_neg hht]
      have : ∀ l : List Str, ∀ st, stNE st → stNE (l.foldl (pushChunkText m) st) := by
        intro l
        induction l with
        | nil => intro st h; exact h
        | cons x xs ih =>
          intro st hst
          rw [List.foldl_cons]
          exact ih _ (pushChunkText_ne x hst)
      exact this _ st h
  · rw [if_neg hlen]
    exact pushChunkText_ne p h

lemma foldl_processPart_ne {m : Nat} (h1 : 1 ≤ m) (parts : List Str) :
    ∀ st, stNE st → stNE (parts.foldl (processPart m) st) := by
  induction parts with
  | nil => intro st h; exact h
  | cons x xs ih =>
    intro st h
    rw [List.foldl_cons]
    exact ih _ (processPart_ne h1 x h)

lemma pushChunkText_keeps {m : Nat} {st : SplitState} {f : Str} (c : Str)
    (h : stKeeps f st) : stKeeps f (pushChunkText m st c) := by
  unfold pushChunkText
  rcases h with ⟨x, hx, l, r, he⟩ | ⟨l, r, he⟩
  · split
    · exact Or.inl ⟨x, List.mem_append_left _ hx, l, r, he⟩
    · exact Or.inl ⟨x, hx, l, r, he⟩
  · split
    · exact Or.inl ⟨st.current, List.mem_append_right _ (List.mem_singleton_self _), l, r, he⟩
    · exact Or.inr ⟨l, r ++ c, by rw [he]; simp⟩

lemma pushCodeblock_keeps {m : Nat} {st : SplitState} {f : Str} (cb : Str)
    (h : stKeeps f st) : stKeeps f (pushCodeblock m st cb) := by
  unfold pushCodeblock
  rcases h with ⟨x, hx, l, r, he⟩ | ⟨l, r, he⟩
  · split
    · exact Or.inl ⟨x, List.mem_append_left _ hx, l, r, he⟩
    · split
      · exact Or.inl ⟨x, List.mem_append_left _ (List.mem_append_left _ hx), l, r, he⟩
      · exact Or.inl ⟨x, List.mem_append_left _ hx, l, r, he⟩
  · split
    · exact Or.inr ⟨l, r, he⟩
    · split
      · exact Or.inl ⟨st.current,
          List.mem_append_left _ (List.mem_append_right _ (List.mem_singleton_self _)), l, r, he⟩
      · exact Or.inr ⟨l, r, he⟩

lemma processPart_keeps {m : Nat} {st : SplitState} {f : Str} (p : Str)
    (h : stKeeps f st) : stKeeps f (processPart m st p) := by
  unfold processPart
  by_cases hlen : p.length > m
  · rw [if_pos hlen]
    by_cases hht : hasTriple p
    · rw [if_pos hht]
      have : ∀ l : List Str, ∀ st, stKeeps f st → stKeeps f (l.foldl (pushCodeblock m) st) := by
        intro l
        induction l with
        | nil => intro st h; exact h
        | cons x xs ih =>
          intro st hst
          rw [List.foldl_cons]
          exact ih _ (pushCodeblock_keeps x hst)
      exact this _ st h
    · rw [if_neg hht]
      have : ∀ l : List Str, ∀ st, stKeeps f st → stKeeps f (l.foldl (pushChunkText m) st) := by
        intro l
        induction l with
        | nil => intro st h; exact h
        | cons x xs ih =>
          intro st hst
          rw [List.foldl_cons]
          exact ih _ (pushChunkText_keeps x hst)
      exact this _ st h
  · rw [if_neg hlen]
    exact pushChunkText_keeps p h

lemma foldl_processPart_keeps {m : Nat} {f : Str} (parts : List Str) :
    ∀ st, stKeeps f st → stKeeps f (parts.foldl (processPart m) st) := by
  induction parts with
  | nil => intro st h; exact h
  | cons x xs ih =>
    intro st h
    rw [List.foldl_cons]
    exact ih _ (processPart_keeps x h)

lemma processPart_self_keeps {m : Nat} {st : SplitState} {f : Str}
    (hf : ¬ f.length > m) : stKeeps f (processPart m st f) := by
  unfold processPart
  rw [if_neg hf]
  unfold pushChunkText
  split
  · exact Or.inr ⟨[], [], by simp⟩
  · exact Or.inr ⟨st.current, [], by simp⟩

lemma finalizeSplit_flatten (st : SplitState) : (finalizeSplit st).flatten = stJoin st := by
  unfold finalizeSplit stJoin
  split
  · next h => rw [h]; simp
  · simp

lemma finalizeSplit_mem_bound {m : Nat} {st : SplitState} (h : stBound m st) :
    ∀ ch ∈ finalizeSplit st, ch.length ≤ m := by
  unfold finalizeSplit
  split
  · exact h.1
  · intro ch hch
    rcases List.mem_append.mp hch with hx | hx
    · exact h.1 ch hx
    · rw [List.mem_singleton.mp hx]; exact h.2

lemma finalizeSplit_mem_ne {st : SplitState} (h : stNE st) :
    ∀ ch ∈ finalizeSplit st, ch ≠ [] := by
  unfold finalizeSplit
  split
  · exact h
  · next hc =>
    intro ch hch
    rcases List.mem_append.mp hch with hx | hx
    · exact h ch hx
    · rw [List.mem_singleton.mp hx]; exact hc

lemma finalizeSplit_keeps {f : Str} {st : SplitState} (hne : f ≠ []) (h : stKeeps f st) :
    ∃ ch ∈ finalizeSplit st, ∃ l r, ch = l ++ f ++ r := by
  unfold finalizeSplit
  rcases h with ⟨x, hx, l, r, he⟩ | ⟨l, r, he⟩
  · split
    · exact ⟨x, hx, l, r, he⟩
    · exact ⟨x, List.mem_append_left _ hx, l, r, he⟩
  · have hcne : st.current ≠ [] := by
      rw [he]
      intro hc
      rcases List.append_eq_nil.mp hc with ⟨hc1, hc2⟩
      exact hne (List.append_eq_nil.mp hc1).2
    rw [if_neg hcne]
    exact ⟨st.current, List.mem_append_right _ (List.mem_singleton_self _), l, r, he⟩

/-- Counterexample to claim C1: with `maxLength = 2 > 0`, the text
`` a```bb``` `` is segmented into the forced sub-splits of the oversized
fenced region FOLLOWED by the buffered plain text `a` — the oversized region
is appended directly to the output, bypassing the pending buffer, so the
concatenation of the chunks is `` ```bb```a `` and does not reproduce the
input. -/
theorem c1_counterexample :
    (split_message c1text 2).flatten ≠ c1text ∧
    split_message c1text 2
      = [[backtick, backtick], [backtick, 'b'], ['b', backtick], [backtick, backtick], ['a']] := by
  constructor
  · decide
  · decide

/-- Amended claim C1: for `maxLength > 0` every returned chunk has length at
most `maxLength` (unconditionally, with a chunk of exactly `maxLength`
allowed); and the concatenation of the chunks reproduces the text exactly
PROVIDED no segment of the fence scan that contains a fence marker is longer
than `maxLength` (i.e. no fenced region and no unmatched-fence segment
exceeds `maxLength`).  Without that proviso an oversized fenced region is
emitted out of order relative to buffered text, and an oversized segment
with an unmatched fence marker is dropped entirely. -/
theorem c1_amended_segmenter :
    ∀ (content : Str) (m : Nat), 0 < m →
      (∀ ch ∈ split_message content m, ch.length ≤ m) ∧
      ((∀ p ∈ splitParts content, hasTriple p = true → p.length ≤ m) →
        (split_message content m).flatten = content) := by
  intro content m hm
  constructor
  · have hb := foldl_processPart_bound hm (splitParts content)
      (SplitState.mk [] []) ⟨by intro x hx; exact absurd hx (List.not_mem_nil x), by simp⟩
    unfold split_message
    exact finalizeSplit_mem_bound hb
  · intro hgood
    have hj := foldl_processPart_join hm (splitParts content) hgood (SplitState.mk [] [])
    unfold split_message
    rw [finalizeSplit_flatten, hj]
    simp [stJoin, splitParts_flatten]

/-- Witness for the amended claim C1 at the concrete text `` ab```cd``` ``
with `maxLength = 100`: the chunks concatenate back to the text and each is
within the limit. -/
theorem c1_amended_segmenter_witness :
    (∀ ch ∈ split_message ("ab".toList ++ backtick :: backtick :: backtick :: 'c' :: 'd' :: [backtick, backtick, backtick]) 100,
      ch.length ≤ 100) ∧
    (split_message ("ab".toList ++ backtick :: backtick :: backtick :: 'c' :: 'd' :: [backtick, backtick, backtick]) 100).flatten
      = "ab".toList ++ backtick :: backtick :: backtick :: 'c' :: 'd' :: [backtick, backtick, backtick] := by
  have h := c1_amended_segmenter
    ("ab".toList ++ backtick :: backtick :: backtick :: 'c' :: 'd' :: [backtick, backtick, backtick]) 100
    (by decide)
  exact ⟨h.1, h.2 (by decide)⟩

/-- Claim C10: for `maxLength > 0` the segmenter never emits an empty chunk:
the empty input yields the empty chunk sequence, and every chunk of every
input is non-empty. -/
theorem c10_chunks_nonempty :
    ∀ (content : Str) (m : Nat), 0 < m →
      split_message [] m = [] ∧ ∀ ch ∈ split_message content m, ch ≠ [] := by
  intro content m hm
  constructor
  · rfl
  · have hne := foldl_processPart_ne hm (splitParts content)
      (SplitState.mk [] []) (by intro x hx; exact absurd hx (List.not_mem_nil x))
    unfold split_message
    exact finalizeSplit_mem_ne hne

/-- Witness for claim C10 at a plain text, an oversized fenced text and the
empty text, with `maxLength = 5 > 0`. -/
theorem c10_chunks_nonempty_witness :
    (split_message [] 5 = [] ∧ ∀ ch ∈ split_message ("hi there".toList) 5, ch ≠ []) ∧
    (∀ ch ∈ split_message c1text 5, ch ≠ []) := by
  exact ⟨c10_chunks_nonempty ("hi there".toList) 5 (by decide),
    (c10_chunks_nonempty c1text 5 (by decide)).2⟩

/-- Claim C3: a complete fenced region (as found by the source's fence scan)
whose length is strictly below `maxLength` is never split across a chunk
boundary: the entire region, both fence markers included, occurs contiguously
inside a single returned chunk. -/
theorem c3_fenced_region_intact :
    ∀ (content : Str) (m : Nat) (f : Str), f ∈ findall content → f.length < m →
      ∃ ch ∈ split_message content m, ∃ l r, ch = l ++ f ++ r := by
  intro content m f hf hlt
  have hfp : f ∈ splitParts content := findall_subset_splitParts hf
  have hfne : f ≠ [] := findall_mem_ne_nil hf
  obtain ⟨l1, l2, hdecomp⟩ := List.append_of_mem hfp
  unfold split_message
  rw [hdecomp, List.foldl_append, List.foldl_cons]
  exact finalizeSplit_keeps hfne
    (foldl_processPart_keeps l2 _ (processPart_self_keeps (by omega)))

/-- Witness for claim C3: in `` x```y``` z `` with `maxLength = 100` the
fenced region `` ```y``` `` lands contiguously inside one chunk. -/
theorem c3_fenced_region_intact_witness :
    ∃ ch ∈ split_message
      ('x' :: (backtick :: backtick :: backtick :: 'y' :: [backtick, backtick, backtick]) ++ " z".toList) 100,
      ∃ l r, ch = l ++ (backtick :: backtick :: backtick :: 'y' :: [backtick, backtick, backtick]) ++ r :=
  c3_fenced_region_intact _ 100 _ (by decide) (by decide)

/-! ## The concrete 3000-character fenced block of claim C5 -/

lemma findClose_cons_ne (c : Char) (s : Str) (h : ¬ c = backtick) :
    findClose (c :: s) = (findClose s).map (fun p => (c :: p.1, p.2)) := by
  cases s with
  | nil => rfl
  | cons b u =>
    cases u with
    | nil => rfl
    | cons d r =>
      rw [findClose, if_neg (by simp [h])]

lemma findClose_replicate (n : Nat) (r : Str) :
    findClose (List.replicate n 'a' ++ backtick :: backtick :: backtick :: r)
      = some (List.replicate n 'a', r) := by
  induction n with
  | zero =>
    rw [List.replicate_zero, List.nil_append, findClose, if_pos ⟨rfl, rfl, rfl⟩]
  | succ k ih =>
    rw [List.replicate_succ, List.cons_append, findClose_cons_ne _ _ (by decide), ih]
    rfl

lemma splitParts_single {s : Str} (hne : s ≠ [])
    (h : splitFirstFence s = some ([], s, [])) : splitParts s = [s] := by
  unfold splitParts
  cases s with
  | nil => exact absurd rfl hne
  | cons a t =>
    rw [List.length_cons, splitPartsF_succ, h]
    simp [splitPartsF_nil]

lemma findall_single {s : Str} (hne : s ≠ [])
    (h : splitFirstFence s = some ([], s, [])) : findall s = [s] := by
  unfold findall
  cases s with
  | nil => exact absurd rfl hne
  | cons a t =>
    rw [List.length_cons, findallF_succ, h]
    simp [findallF_nil]

lemma chunksOf_two {n : Nat} {s : Str} (h1 : 1 ≤ n) (h2 : n < s.length)
    (h3 : s.length ≤ 2 * n) : chunksOf n s = [s.take n, s.drop n] := by
  unfold chunksOf
  cases s with
  | nil => simp at h2
  | cons a t =>
    rw [List.length_cons, chunksOfF_succ]
    have hdlen : ((a :: t).drop n).length = t.length + 1 - n := by
      simp [List.length_drop]
    have hdne : (a :: t).drop n ≠ [] := by
      intro hd
      rw [hd] at hdlen
      simp only [List.length_cons] at h2
      simp at hdlen
      omega
    obtain ⟨b, u, hbu⟩ : ∃ b u, (a :: t).drop n = b :: u := by
      cases hd : (a :: t).drop n with
      | nil => exact absurd hd hdne
      | cons b u => exact ⟨b, u, rfl⟩
    obtain ⟨m, hm⟩ : ∃ m, t.length = m + 1 := by
      simp only [List.length_cons] at h2 h3
      exact ⟨t.length - 1, by omega⟩
    rw [hm, hbu, chunksOfF_succ]
    have hbul : (b :: u).length ≤ n := by
      rw [← hbu, hdlen]
      simp only [List.length_cons] at h3
      omega
    rw [List.take_of_length_le hbul, List.drop_eq_nil_of_le hbul, chunksOfF_nil, ← hbu]

/-- Claim C5: on an input that is exactly one 3000-character fenced code
block, `split_message` with `maxLength = 2000` returns exactly two chunks,
the first 2000 and the second 1000 characters long, which are the two
in-order contiguous slices of the block (so no fence markers are
re-inserted into the forced sub-splits). -/
theorem c5_forced_subsplit :
    split_message c5block 2000 = [c5block.take 2000, c5block.drop 2000] ∧
    (c5block.take 2000).length = 2000 ∧
    (c5block.drop 2000).length = 1000 ∧
    c5block.take 2000 ++ c5block.drop 2000 = c5block ∧
    c5block.length = 3000 := by
  have hlen : c5block.length = 3000 := by
    unfold c5block
    rw [List.length_cons, List.length_cons, List.length_cons,
      List.length_append, List.length_replicate]
    rfl
  have hne : c5block ≠ [] := by unfold c5block; exact List.cons_ne_nil _ _
  have hsff : splitFirstFence c5block = some ([], c5block, []) := by
    unfold c5block
    rw [splitFirstFence, if_pos ⟨rfl, rfl, rfl⟩,
      show findClose (List.replicate 2994 'a' ++ [backtick, backtick, backtick])
        = some (List.replicate 2994 'a', []) from findClose_replicate 2994 []]
  have hparts : splitParts c5block = [c5block] := splitParts_single hne hsff
  have hfind : findall c5block = [c5block] := findall_single hne hsff
  have htrip : hasTriple c5block = true := by
    unfold c5block
    rw [hasTriple, if_pos ⟨rfl, rfl, rfl⟩]
  have hchunks : chunksOf 2000 c5block = [c5block.take 2000, c5block.drop 2000] :=
    chunksOf_two (by omega) (by omega) (by omega)
  refine ⟨?_, ?_, ?_, List.take_append_drop 2000 c5block, hlen⟩
  · unfold split_message
    rw [hparts, List.foldl_cons, List.foldl_nil]
    unfold processPart
    rw [if_pos (by omega : c5block.length > 2000), htrip]
    simp only [if_true]
    rw [hfind, List.foldl_cons, List.foldl_nil]
    unfold pushCodeblock
    rw [if_pos (by omega : c5block.length > 2000), hchunks]
    rfl
  · rw [List.length_take]
    omega
  · rw [List.length_drop]
    omega
